import Mathlib

set_option maxRecDepth 1000000
set_option maxHeartbeats 4000000

/-!
Verification of the metadata-normalization pipeline of `yt-music.py`.

The program manipulates Python `str` values; we embed those as `List Char`
(`PyStr`).  Characters are handled at the ASCII level (Python's `str.lower`
and `str.upper` agree with `Char.toLower`/`Char.toUpper` on every character
the program manipulates; the non-ASCII characters occurring in the rule
tables — typographic quotes, dashes, full-width punctuation — are caseless
in both).  Every definition is translated from the source of
`src/yt-music.py`, except for the model of the third-party `titlecase`
library (not part of this repository), which is translated from the
published algorithm of the python-titlecase package that the program
imports.
-/

namespace YtMusic

/-- A Python string, embedded as a list of characters. -/
abbrev PyStr := List Char

/-- Literal helper: the embedded form of a Lean string literal. -/
def pys (s : String) : PyStr := s.toList

/-- The ASCII double-quote character. -/
def cQuote : Char := Char.ofNat 34

/-- The ASCII apostrophe character. -/
def cApos : Char := Char.ofNat 39

/-- The ASCII grave-accent character. -/
def cGrave : Char := Char.ofNat 96

/-- The ASCII left curly-bracket character. -/
def cLCurl : Char := Char.ofNat 123

/-- The ASCII right curly-bracket character. -/
def cRCurl : Char := Char.ofNat 125

/-- Python `str.lower` (ASCII model). -/
def lowerS (s : PyStr) : PyStr := s.map Char.toLower

/-- Python `str.upper` (ASCII model). -/
def upperS (s : PyStr) : PyStr := s.map Char.toUpper

/-- Python `str.capitalize`: first character upper-cased, the rest lower-cased. -/
def capitalizeS : PyStr → PyStr
  | [] => []
  | c :: t => c.toUpper :: t.map Char.toLower

/-- Python substring containment `needle in hay`. -/
def containsSub (needle : PyStr) : PyStr → Bool
  | [] => needle.isPrefixOf []
  | c :: t => needle.isPrefixOf (c :: t) || containsSub needle t

/-- Split at the first occurrence of `sep`: returns the text before and after it,
`none` when `sep` does not occur.  (Backs Python `split(sep, 1)` and
`replace(a, b, 1)`.) -/
def splitFirst (sep : PyStr) : PyStr → Option (PyStr × PyStr)
  | [] => if sep.isPrefixOf ([] : PyStr) then some ([], []) else none
  | c :: t =>
    if sep.isPrefixOf (c :: t) then some ([], (c :: t).drop sep.length)
    else match splitFirst sep t with
      | some (p, q) => some (c :: p, q)
      | none => none

/-- Fuel-driven worker for `pySplit`. -/
def pySplitF (sep : PyStr) : Nat → PyStr → List PyStr
  | 0, s => [s]
  | fuel+1, s =>
    match splitFirst sep s with
    | none => [s]
    | some (p, q) => p :: pySplitF sep fuel q

/-- Python `str.split(sep)` for a non-empty separator (keeps empty fields). -/
def pySplit (sep s : PyStr) : List PyStr := pySplitF sep (s.length + 1) s

/-- Fuel-driven worker for `replaceAll`. -/
def replaceAllF (pat repl : PyStr) : Nat → PyStr → PyStr
  | 0, s => s
  | _+1, [] => []
  | fuel+1, c :: t =>
    if pat.isPrefixOf (c :: t) then repl ++ replaceAllF pat repl fuel ((c :: t).drop pat.length)
    else c :: replaceAllF pat repl fuel t

/-- Python `str.replace(pat, repl)` for a non-empty pattern: replaces every
occurrence, scanning left to right, non-overlapping.  (The program never
calls `replace` with an empty pattern: every key of its rule table has at
least one character.) -/
def replaceAll (pat repl s : PyStr) : PyStr :=
  if pat = [] then s else replaceAllF pat repl s.length s

/-- Python `str.replace(pat, repl, 1)`: replaces the first occurrence only. -/
def replaceFirst (pat repl s : PyStr) : PyStr :=
  match splitFirst pat s with
  | some (p, q) => p ++ repl ++ q
  | none => s

/-- Python whitespace (the characters stripped by `str.strip()` and matched
by the regex class `\s`, ASCII model). -/
def isPySpace (c : Char) : Bool :=
  c == ' ' || c == '\t' || c == '\n' || c == '\r' || c == '\x0b' || c == '\x0c'

/-- Python `str.strip()`. -/
def stripS (s : PyStr) : PyStr :=
  ((s.dropWhile isPySpace).reverse.dropWhile isPySpace).reverse

/-- `os.path.basename` (POSIX flavour: the text after the last `/`; the
program only ever passes plain relative file names produced by the
downloader, which contain no directory separators). -/
def basenameP (s : PyStr) : PyStr :=
  (s.reverse.takeWhile (fun c => c != '/')).reverse

/-- Index of the last character satisfying `p`, if any. -/
def lastIdx (p : Char → Bool) (s : PyStr) : Option Nat :=
  match s.reverse.findIdx? p with
  | some i => some (s.length - 1 - i)
  | none => none

/-- The index of the last `/` of a path, `-1` when there is none (the
`sepIndex` of posixpath's `splitext`). -/
def sepIdxI (s : PyStr) : Int :=
  match lastIdx (fun c => c == '/') s with
  | some i => (i : Int)
  | none => -1

/-- The branch of posixpath's `splitext` taken when a dot exists at index
`d`: split there if the dot lies in the base name and some character of
the base name before it is not itself a dot. -/
def splitextAux (s : PyStr) (d : Nat) : PyStr × PyStr :=
  if sepIdxI s < (d : Int) then
    if ((s.drop (sepIdxI s + 1).toNat).take (d - (sepIdxI s + 1).toNat)).any
        (fun c => c != '.') then
      (s.take d, s.drop d)
    else (s, [])
  else (s, [])

/-- `os.path.splitext` (posixpath): splits off the extension beginning at the
last dot, unless every character of the base name before that dot is itself a
dot (leading dots never start an extension). -/
def splitextP (s : PyStr) : PyStr × PyStr :=
  match lastIdx (fun c => c == '.') s with
  | none => (s, [])
  | some d => splitextAux s d

/-! ### Model of the third-party `titlecase` library

The program imports `from titlecase import titlecase`.  The library is not
part of this repository; the definitions below are translated from the
published python-titlecase algorithm: a line is split on tabs/spaces, each
word is transformed (initials, apostrophe-second words, Mc-prefixed words,
words with inline periods or interior capitals, the small-word list, words
split on slashes or hyphens, and finally first-letter capitalization), the
first and last word of a line get their small words capitalized, and a
small word following sub-phrase punctuation is capitalized. -/

/-- The punctuation class `PUNCT` of the titlecase library. -/
def punctChars : List Char :=
  ['!', cQuote, '#', '$', '%', '&', cApos, '‘', '(', ')', '*', '+', ',',
   '-', '–', '‒', '—', '―', '.', '/', ':', ';', '?', '@', '[', '\\', ']',
   '_', cGrave, cLCurl, '|', cRCurl, '~']

/-- The regex class `\w` (ASCII model). -/
def isWordChar (c : Char) : Bool := c.isAlpha || c.isDigit || c == '_'

/-- `line.upper() == line`: no character changes under upper-casing. -/
def allCapsB (l : PyStr) : Bool := l.all (fun c => c.toUpper == c)

/-- The small words of the titlecase library, as a full-match set
(`SMALL_WORDS`, case-insensitive: the word, lower-cased, must be one of
these). -/
def smallWordFull (w : PyStr) : Bool :=
  (["a", "an", "and", "as", "at", "but", "by", "en", "for", "if", "in",
    "of", "on", "or", "the", "to", "v", "v.", "via", "vs", "vs."].map pys).contains (lowerS w)

/-- Word-boundary test of the regexes: a boundary sits between positions
`i-1` and `i` of `t` when exactly one of the two neighbouring characters is
a word character (positions outside the string count as non-word). -/
def boundaryAfter (t : PyStr) (i : Nat) : Bool :=
  let before := match t.get? (i - 1) with
    | some c => isWordChar c
    | none => false
  let after := match t.get? i with
    | some c => isWordChar c
    | none => false
  (i != 0) && (before != after)

/-- First small-word alternative (in the regex's declared order, with the
greedy optional dots of `v\.?` and `vs\.?`) matching at the head of the
lower-cased text `t` and followed by a word boundary; returns the matched
length.  Backs `SMALL_FIRST`. -/
def smallAltWB (t : PyStr) : Option Nat :=
  (["a", "an", "and", "as", "at", "but", "by", "en", "for", "if", "in",
    "of", "on", "or", "the", "to", "v.", "v", "via", "vs.", "vs"].map pys).findSome?
    (fun a => if a.isPrefixOf t && boundaryAfter t a.length then some a.length else none)

/-- `SMALL_FIRST`: on the first word of a line, capitalize a leading small
word (after an optional run of punctuation). -/
def smallFirstSub (w : PyStr) : PyStr :=
  let pn := (w.takeWhile (fun c => punctChars.contains c)).length
  let tail := w.drop pn
  match smallAltWB (lowerS tail) with
  | some L => w.take pn ++ capitalizeS (tail.take L) ++ tail.drop L
  | none => w

/-- Acceptance test for `SMALL_LAST` at a given start: a small-word
alternative (regex order, greedy optional dots) matching the lower-cased
text `t`, followed by at most one punctuation character, reaching the end. -/
def smallAltEnd (t : PyStr) : Bool :=
  let fits : PyStr → Bool := fun a =>
    a.isPrefixOf t &&
      (t.length == a.length ||
        (t.length == a.length + 1 &&
          (match t.get? a.length with
           | some c => punctChars.contains c
           | none => false)))
  fits (pys "a") || fits (pys "an") || fits (pys "and") || fits (pys "as") ||
  fits (pys "at") || fits (pys "but") || fits (pys "by") || fits (pys "en") ||
  fits (pys "for") || fits (pys "if") || fits (pys "in") || fits (pys "of") ||
  fits (pys "on") || fits (pys "or") || fits (pys "the") || fits (pys "to") ||
  fits (pys "v.") || fits (pys "v") || fits (pys "via") || fits (pys "vs.") ||
  fits (pys "vs")

/-- Leftmost start position of a `SMALL_LAST` match in `w`, if any. -/
def smallLastPos (w : PyStr) : Option Nat :=
  (List.range w.length).find? (fun i =>
    boundaryAfter w i && smallAltEnd (lowerS (w.drop i)))

/-- `SMALL_LAST`: on the last word of a line, capitalize a trailing small
word (with an optional final punctuation character); the whole match — which
always extends to the end of the word — is `capitalize`d. -/
def smallLastSub (w : PyStr) : PyStr :=
  match smallLastPos w with
  | some i => w.take i ++ capitalizeS (w.drop i)
  | none => w

/-- The sub-phrase punctuation class of `SUBPHRASE`. -/
def subPunct : List Char := [':', '.', ';', '?', '!', '-', '–', '‒', '—', '―']

/-- First small-word alternative matching (case-sensitively, no trailing
boundary) at the head of `t`; returns the matched length.  In the regex's
alternation order, `a` subsumes `an`, `and`, `as`, `at`, and `v\.?` subsumes
`via` and `vs\.?`. -/
def subAltLen (t : PyStr) : Option Nat :=
  if (pys "a").isPrefixOf t then some 1
  else if (pys "but").isPrefixOf t then some 3
  else if (pys "by").isPrefixOf t then some 2
  else if (pys "en").isPrefixOf t then some 2
  else if (pys "for").isPrefixOf t then some 3
  else if (pys "if").isPrefixOf t then some 2
  else if (pys "in").isPrefixOf t then some 2
  else if (pys "of").isPrefixOf t then some 2
  else if (pys "on").isPrefixOf t then some 2
  else if (pys "or").isPrefixOf t then some 2
  else if (pys "the").isPrefixOf t then some 3
  else if (pys "to").isPrefixOf t then some 2
  else if (pys "v.").isPrefixOf t then some 2
  else if (pys "v").isPrefixOf t then some 1
  else none

/-- Fuel-driven worker for `subphraseSub`. -/
def subphraseSubF : Nat → PyStr → PyStr
  | 0, s => s
  | _+1, [] => []
  | _+1, [c] => [c]
  | fuel+1, c :: t0 :: u =>
    if subPunct.contains c && t0 == ' ' then
      match subAltLen u with
      | some L => c :: t0 :: (capitalizeS (u.take L) ++ subphraseSubF fuel (u.drop L))
      | none => c :: subphraseSubF fuel (t0 :: u)
    else c :: subphraseSubF fuel (t0 :: u)

/-- `SUBPHRASE`: capitalize a small word that follows sub-phrase punctuation
and a space, at every (non-overlapping) occurrence. -/
def subphraseSub (s : PyStr) : PyStr := subphraseSubF s.length s

/-- `CAPFIRST`: upper-case the first word character, provided only
punctuation precedes it. -/
def capFirstSub : PyStr → PyStr
  | [] => []
  | c :: t =>
    if isWordChar c then c.toUpper :: t
    else if punctChars.contains c then c :: capFirstSub t
    else c :: t

/-- Worker for `UC_INITIALS`: the string decomposes into blocks `X.` or
`X.Y` with `X`, `Y` upper-case. -/
def ucitAux : PyStr → Bool
  | [] => true
  | a :: '.' :: rest =>
    a.isUpper && (ucitAux rest ||
      (match rest with
       | b :: r2 => b.isUpper && ucitAux r2
       | [] => false))
  | _ => false

/-- `UC_INITIALS`: at least one block of upper-case initials. -/
def ucInitials (w : PyStr) : Bool := !w.isEmpty && ucitAux w

/-- Tail of `APOS_SECOND` after the first two characters: one or more
letters, optionally followed by an apostrophe/left-quote and one or more
letters, reaching the end (case-insensitive letters). -/
def aposTail (l : PyStr) : Bool :=
  let letters := l.takeWhile Char.isAlpha
  let rest := l.drop letters.length
  !letters.isEmpty &&
    (rest.isEmpty ||
      (match rest with
       | q :: more => (q == cApos || q == '‘') && !more.isEmpty && more.all Char.isAlpha
       | [] => true))

/-- `APOS_SECOND`: words such as `d'Artagnan` — a `d`/`o`/`l` (any case),
an apostrophe or left single quote, then letters. -/
def aposSecond (w : PyStr) : Bool :=
  match w with
  | c0 :: c1 :: rest =>
    ((c0.toLower == 'd') || (c0.toLower == 'o') || (c0.toLower == 'l')) &&
      (c1 == cApos || c1 == '‘') && aposTail rest
  | _ => false

/-- The transformation applied to an `APOS_SECOND` word: the first character
is lower-cased when it is a consonant and upper-cased when it is a vowel,
and the third character is upper-cased. -/
def aposTransform (w : PyStr) : PyStr :=
  match w with
  | c0 :: c1 :: c2 :: rest =>
    (if ['a', 'e', 'i', 'o', 'u', 'A', 'E', 'I', 'O', 'U'].contains c0
     then c0.toUpper else c0.toLower) :: c1 :: c2.toUpper :: rest
  | _ => w

/-- `MAC_MC`: a word starting `Mc`, `mc` or `MC` followed by a word
character and at least one further character; returns the two-character
head and the remainder. -/
def macMc : PyStr → Option (PyStr × PyStr)
  | c0 :: c1 :: r0 :: r1 :: t =>
    if (((c0 == 'M') || (c0 == 'm')) && c1 == 'c' || (c0 == 'M' && c1 == 'C')) &&
        isWordChar r0 then
      some ([c0, c1], r0 :: r1 :: t)
    else none
  | _ => none

/-- `INLINE_PERIOD`: a letter, a period and a letter occur consecutively
somewhere in the word. -/
def inlinePeriod : PyStr → Bool
  | [] => false
  | a :: rest =>
    (match rest with
     | '.' :: b :: _ => a.isAlpha && b.isAlpha
     | _ => false) || inlinePeriod rest

/-- `UC_ELSEWHERE`: after an optional run of punctuation, a run of letters
containing an upper-case letter beyond its first position. -/
def ucElsewhere (w : PyStr) : Bool :=
  let t := w.dropWhile (fun c => punctChars.contains c)
  let run := t.takeWhile Char.isAlpha
  !run.isEmpty && (run.drop 1).any Char.isUpper

/-- Python `sep.join(parts)`. -/
def joinWith (sep : PyStr) : List PyStr → PyStr
  | [] => []
  | [x] => x
  | x :: y :: r => x ++ sep ++ joinWith sep (y :: r)

/-- Split on single separator characters selected by `p`, keeping empty
fields (the behaviour of `re.split` with a one-character class). -/
def splitOnP (p : Char → Bool) : PyStr → List PyStr
  | [] => [[]]
  | c :: t =>
    if p c then [] :: splitOnP p t
    else match splitOnP p t with
      | h :: r => (c :: h) :: r
      | [] => [[c]]

/-- Fuel-driven worker for `splitRuns`. -/
def splitRunsF (p : Char → Bool) : Nat → PyStr → List PyStr
  | 0, s => [s]
  | fuel+1, s =>
    match s.dropWhile (fun c => !p c) with
    | [] => [s.takeWhile (fun c => !p c)]
    | rest => s.takeWhile (fun c => !p c) :: splitRunsF p fuel (rest.dropWhile p)

/-- Split on maximal non-empty runs of characters selected by `p` (the
behaviour of `re.split` with a one-character class under `+`). -/
def splitRuns (p : Char → Bool) (s : PyStr) : List PyStr :=
  splitRunsF p (s.length + 1) s

/-- The per-word transformation of the titlecase library.  The fuel bounds
the recursion through sub-words (hyphen/slash components and `Mc` tails),
each strictly shorter than the word, so `length + 1` fuel always suffices.
`ac` is the all-caps flag of the enclosing line, `sfl` the
`small_first_last` flag passed to recursive calls.  A recursive
`titlecase(subword, callback, flag)` call reduces, on the space-, tab- and
newline-free sub-words arising here, to the per-word transformation with
the sub-word's own all-caps flag, the first/last small-word adjustment
when the flag is set, and the sub-phrase pass. -/
def procWordF : Nat → Bool → Bool → PyStr → PyStr
  | 0, _, _, w => w
  | fuel+1, ac, sfl, w =>
    if ac && ucInitials w then w
    else if aposSecond w then aposTransform w
    else
      match macMc w with
      | some (pre2, rest) =>
        capitalizeS pre2 ++
          subphraseSub (if sfl then smallLastSub (smallFirstSub (procWordF fuel (allCapsB rest) sfl rest))
                        else procWordF fuel (allCapsB rest) sfl rest)
      | none =>
        if inlinePeriod w || (!ac && ucElsewhere w) then w
        else if smallWordFull w then lowerS w
        else if containsSub ['/'] w && !containsSub ['/', '/'] w then
          joinWith ['/'] ((splitOnP (fun c => c == '/') w).map (fun w' =>
            subphraseSub (procWordF fuel (allCapsB w') false w')))
        else if containsSub ['-'] w then
          joinWith ['-'] ((splitOnP (fun c => c == '-') w).map (fun w' =>
            subphraseSub (if sfl then smallLastSub (smallFirstSub (procWordF fuel (allCapsB w') sfl w'))
                          else procWordF fuel (allCapsB w') sfl w')))
        else
          capFirstSub (if ac then lowerS w else w)

/-- Apply `smallFirstSub` to the first and `smallLastSub` to the last
element of the processed word list (the order of the library: the first
word is adjusted before the last one, which matters for one-word lines). -/
def modifyLast (f : PyStr → PyStr) : List PyStr → List PyStr
  | [] => []
  | [x] => [f x]
  | x :: xs => x :: modifyLast f xs

/-- First/last small-word adjustment of a processed line. -/
def applyFirstLast : List PyStr → List PyStr
  | [] => []
  | h :: t =>
    let h' := smallFirstSub h
    match t with
    | [] => [smallLastSub h']
    | _ => h' :: modifyLast smallLastSub t

/-- One line of `titlecase`: split on tabs and spaces, process each word,
adjust first/last small words, join with single spaces and apply the
sub-phrase rule. -/
def lineProc (line : PyStr) : PyStr :=
  let ac := allCapsB line
  let ws := splitOnP (fun c => c == ' ' || c == '\t') line
  let tl := ws.map (fun w => procWordF (w.length + 1) ac true w)
  subphraseSub (joinWith [' '] (applyFirstLast tl))

/-- The `titlecase` function of the titlecase library (with
`small_first_last = True`, as the program calls it). -/
def titlecase (text : PyStr) : PyStr :=
  joinWith ['\n'] ((splitRuns (fun c => c == '\n' || c == '\r') text).map lineProc)

/-! ### `normalize_filename` (src/yt-music.py, lines 25–116)

The function lower-cases the base name, applies the ordered `replace_chars`
table, applies the full-width-colon convention, strips the extension,
strips whitespace, reorders a `feat.` clause, title-cases, reattaches the
extension and lower-cases a title-cased `Feat.`.  The run-time value
`datetime.now().year` interpolated into the rule `f" ({datetime.now().year})"`
is passed in as the explicit parameter `year` (its decimal digits). -/

/-- The entries of the `replace_chars` table that precede the
year-dependent rule, in declared order. -/
def preRules (uploader : PyStr) : List (PyStr × PyStr) :=
  [ (pys " // " ++ uploader, []),
    ([cApos], ['’']),
    (['/'], []),
    (['|'], []),
    (['–'], []),
    (['⧸'], []),
    (['＂'], []),
    (['｜'], []),
    ([cQuote], []),
    (pys " (audio)", []),
    (pys " (hq)", []),
    (pys " (lyric video)", []),
    (pys " (lyrics)", []),
    (pys " (music video)", []),
    (pys " (official animated video)", []),
    (pys " (official audio)", []),
    (pys " (official lyric video)", []),
    (pys " (official lyrics video)", []),
    (pys " (official music video)", []),
    (pys " (official video)", []),
    (pys " (official visualizer)", []),
    (pys " (official)", []),
    (pys " (offizielles video)", []),
    (pys " (performance video)", []),
    (pys " [official video]", []),
    (pys " official audio video", []),
    (pys " official lyric video", []),
    (pys " official music video", []),
    (pys " official video clip", []),
    (pys " official video", []),
    (pys " – official video clip", []) ]

/-- The entries of the `replace_chars` table that follow the year-dependent
rule, in declared order. -/
def postRules (uploader : PyStr) : List (PyStr × PyStr) :=
  [ (pys "_ " ++ lowerS uploader, []),
    (pys " " ++ lowerS uploader, []),
    (pys " ft. ", pys " feat. "),
    (pys " ft.", pys " feat."),
    (pys "  ", pys " ") ]

/-- Apply a rule table in order (`for char, repl in replace_chars.items()`). -/
def applyRulesList (rs : List (PyStr × PyStr)) (s : PyStr) : PyStr :=
  rs.foldl (fun acc pr => replaceAll pr.1 pr.2 acc) s

/-- The full `replace_chars` pass, with the year rule between the two halves. -/
def applyRules (year uploader s : PyStr) : PyStr :=
  applyRulesList (postRules uploader)
    (replaceAll (pys " (" ++ year ++ pys ")") [] (applyRulesList (preRules uploader) s))

/-- Lines 93–96: when the string splits at `"： "` into at least two parts
and the text before the first occurrence is a substring of the lower-cased
uploader, the first occurrence is replaced by `" - "`. -/
def colonStep (uploader s : PyStr) : PyStr :=
  let parts := pySplit (pys "： ") s
  if 2 ≤ parts.length && containsSub (parts.headD []) (lowerS uploader) then
    replaceFirst (pys "： ") (pys " - ") s
  else s

/-- The trigger of the `feat.` reordering step: the string splits at
`" feat. "` into more than one part and the second part contains `" - "`. -/
def featTrigger (s : PyStr) : Bool :=
  let fp := pySplit (pys " feat. ") s
  1 < fp.length && containsSub (pys " - ") (fp.getD 1 [])

/-- Lines 102–108: move a `feat.` clause behind the artist/title separator:
when the text after the first `" feat. "` contains `" - "`, rebuild the
string as `{before} - {second-split-part} feat. {first-split-part}`. -/
def featReorder (s : PyStr) : PyStr :=
  let fp := pySplit (pys " feat. ") s
  if featTrigger s then
    fp.headD [] ++ pys " - " ++ (pySplit (pys " - ") (fp.getD 1 [])).getD 1 []
      ++ pys " feat. " ++ (pySplit (pys " - ") (fp.getD 1 [])).headD []
  else s

/-- The pipeline of `normalize_filename` after the initial
`os.path.basename(...).lower()`. -/
def normalizeCore (year uploader s0 : PyStr) : PyStr :=
  let s1 := applyRules year uploader s0
  let s2 := colonStep uploader s1
  let se := splitextP s2
  let stem := stripS se.1
  let stem2 := featReorder stem
  let res := titlecase stem2 ++ se.2
  replaceAll (pys " Feat. ") (pys " feat. ") res

/-- `normalize_filename(filename, uploader)` with the run-time year made
explicit. -/
def normalize_filename (year uploader filename : PyStr) : PyStr :=
  normalizeCore year uploader (lowerS (basenameP filename))

/-- The rule pass without the year rule; when the intermediate string
contains no `(`, the year rule cannot fire and `applyRules` agrees with
this for every year. -/
def applyRulesNY (uploader s : PyStr) : PyStr :=
  applyRulesList (postRules uploader) (applyRulesList (preRules uploader) s)

/-- `normalizeCore` with the year rule elided (used through the bridge
lemma to prove year-independent facts). -/
def normalizeCoreNY (uploader s0 : PyStr) : PyStr :=
  let s1 := applyRulesNY uploader s0
  let s2 := colonStep uploader s1
  let se := splitextP s2
  let stem := stripS se.1
  let stem2 := featReorder stem
  let res := titlecase stem2 ++ se.2
  replaceAll (pys " Feat. ") (pys " feat. ") res

/-- A title is free of the known noise patterns (relative to an uploader
and the run-time year) when, on the lower-cased base name: no key of the
`replace_chars` table occurs, the full-width-colon convention cannot fire,
the pre-extension stem carries no surrounding whitespace, the `feat.`
reordering cannot fire, and no tab, carriage return, newline or backslash
occurs (such control characters never survive normalization). -/
@[reducible]
def noiseFree (year uploader s : PyStr) : Prop :=
  let s0 := lowerS (basenameP s)
  (∀ pr ∈ preRules uploader, containsSub pr.1 s0 = false) ∧
  containsSub (pys " (" ++ year ++ pys ")") s0 = false ∧
  (∀ pr ∈ postRules uploader, containsSub pr.1 s0 = false) ∧
  containsSub (pys "： ") s0 = false ∧
  stripS (splitextP s0).1 = (splitextP s0).1 ∧
  featTrigger (splitextP s0).1 = false ∧
  '\t' ∉ s0 ∧ '\r' ∉ s0 ∧ '\n' ∉ s0 ∧ '\\' ∉ s0

/-! ### The artist/title split of `process_audio` (lines 317–324)

`new_filename.split(" - ", 1)` raises `ValueError` exactly when the
separator is absent; the `except` branch then derives the artist from the
uploader. -/

/-- The artist/title pair computed by `process_audio` from the normalized
file name and the uploader. -/
def split_artist_title (uploader s : PyStr) : PyStr × PyStr :=
  match splitFirst (pys " - ") s with
  | some (a, t) => (a, replaceAll (pys ".mp3") [] t)
  | none => (titlecase (replaceAll (pys " - Topic") [] uploader),
             replaceAll (pys ".mp3") [] s)

/-! ### `find_genre` (lines 205–268) and the genre step of `set_tags` (193–196)

The filesystem and the two external libraries are made explicit:
`RefEnv` captures what `os.path.isdir`, `os.listdir` and `eyed3.load`
observe at the artist's reference directory, and `WikiEnv` captures what
the `wikipedia` client together with the BeautifulSoup infobox parse
delivers per language.  `eyed3.load` can return `None` (`loadFail`), an
object without tags (`noTag`), or a tag whose `genre` attribute is `None`
or a genre value; the code applies `str(...)` to that attribute. -/

/-- Result of `eyed3.load` on the first reference file. -/
inductive RefLoad where
  | loadFail : RefLoad
  | noTag : RefLoad
  | tagged : Option PyStr → RefLoad
deriving DecidableEq

/-- The reference-directory side of `find_genre`'s environment. -/
structure RefEnv where
  /-- `os.path.isdir(artist_dir_path)` -/
  dirExists : Bool
  /-- `os.listdir(artist_dir_path)` -/
  files : List PyStr
  /-- `eyed3.load(os.path.join(artist_dir_path, f))`, keyed by file name -/
  load : PyStr → RefLoad

/-- A row of the Wikipedia infobox: the header text (if the row has a
`th`) and the text of each link in its data cell. -/
structure InfoRow where
  th : Option PyStr
  links : List PyStr

/-- A Wikipedia page: its infobox rows, when the page has an infobox. -/
structure WikiPage where
  infobox : Option (List InfoRow)

/-- The external side of `find_genre`'s environment:
`wikipedia.page(artist)` under `wikipedia.set_lang(lang)`, `none` meaning
`PageError`. -/
structure WikiEnv where
  page : (lang artist : PyStr) → Option WikiPage

/-- Python `str(...)` applied to `tag.genre`: the genre text when a genre
frame exists, the literal text `None` otherwise. -/
def strOfGenre : Option PyStr → PyStr
  | some g => g
  | none => pys "None"

/-- The genre row predicate: `row.th and row.th.text in ("Genres", "Genre(s)")`. -/
def isGenreRow (r : InfoRow) : Bool :=
  match r.th with
  | some t => t == pys "Genres" || t == pys "Genre(s)"
  | none => false

/-- The value returned from a matching infobox row:
`";".join([titlecase(a.text).replace("-", " ") for a in row.td.find_all("a")])`. -/
def joinGenres (links : List PyStr) : PyStr :=
  joinWith (pys ";") (links.map (fun a => replaceAll (pys "-") (pys " ") (titlecase a)))

/-- One iteration of the language loop of `find_genre`: `none` when the
page is missing, has no infobox, or the infobox has no genre row (the loop
then continues with the next language). -/
def wikiLangStep (wiki : WikiEnv) (artist lang : PyStr) : Option PyStr :=
  match wiki.page lang artist with
  | none => none
  | some page =>
    match page.infobox with
    | none => none
    | some rows =>
      match rows.find? isGenreRow with
      | some row => some (joinGenres row.links)
      | none => none

/-- The Wikipedia half of `find_genre`: the `for lang in ["en", "de"]`
loop, falling through to the empty string. -/
def wikiLookup (wiki : WikiEnv) (artist : PyStr) : PyStr :=
  match wikiLangStep wiki artist (pys "en") with
  | some g => g
  | none =>
    match wikiLangStep wiki artist (pys "de") with
    | some g => g
    | none => []

/-- `find_genre(artist, artist_dir_path)`: the reference-file layer, then
the Wikipedia layer. -/
def find_genre (env : RefEnv) (wiki : WikiEnv) (artist : PyStr) : PyStr :=
  if env.dirExists then
    match env.files with
    | [] => wikiLookup wiki artist
    | f :: _ =>
      match env.load f with
      | RefLoad.loadFail => wikiLookup wiki artist
      | RefLoad.noTag => wikiLookup wiki artist
      | RefLoad.tagged g => strOfGenre g
  else wikiLookup wiki artist

/-- The genre step of `set_tags` (lines 193–196): a falsy (empty)
user-supplied genre triggers `find_genre`, a non-empty one is used as-is. -/
def set_tags_genre (userGenre : PyStr) (env : RefEnv) (wiki : WikiEnv) (artist : PyStr) : PyStr :=
  if userGenre = [] then find_genre env wiki artist else userGenre

/-! ### The album-extraction regex of `process_audio` (lines 332–369)

The concrete pattern is embedded as a purpose-built matcher with Python
`re` semantics: `re.search` scans for the leftmost start position; the cue
alternation, the optional `[,:]`, the greedy `\s+` (with backtracking) and
the six capture alternatives are tried exactly in pattern order.  The six
groups of a successful match are recorded; the code then reads
`match.group(1)` unconditionally. -/

/-- The cue alternatives `album|Album|ALBUM|single|...|ORDER`, in pattern
order. -/
def cueAlts : List PyStr :=
  ["album", "Album", "ALBUM", "single", "Single", "SINGLE",
   "ep", "EP", "order", "Order", "ORDER"].map pys

/-- The capture groups of the album regex. -/
structure AlbumGroups where
  g1 : Option PyStr
  g2 : Option PyStr
  g3 : Option PyStr
  g4 : Option PyStr
  g5 : Option PyStr
  g6 : Option PyStr
deriving DecidableEq

/-- Quoted alternative `q(.+?)q'`: the lazy body is the shortest non-empty
newline-free run ending at a closing quote.  Returns the body and the text
after the closing quote. -/
def quotedAlt (openQ closeQ : Char) (t : PyStr) : Option (PyStr × PyStr) :=
  match t with
  | c :: u =>
    if c == openQ then
      match splitFirst [closeQ] u with
      | some (body, rest) =>
        if body ≠ [] && !body.contains '\n' then some (body, rest) else none
      | none => none
    else none
  | [] => none

/-- Alternative 5, `([^,]+?)\b`: the shortest non-empty comma-free run
followed by a word boundary.  Returns the captured run and the remainder. -/
def bareAlt (t : PyStr) : Option (PyStr × PyStr) :=
  match (List.range t.length).find?
      (fun r => boundaryAfter t (r + 1) && (t.take (r + 1)).all (fun c => c != ',')) with
  | some r => some (t.take (r + 1), t.drop (r + 1))
  | none => none

/-- Alternative 6, `([A-Z]{2,}(?:\s+[A-Z]{2,})+)`: a run of at least two
capitals followed by one or more groups of whitespace and at least two
capitals, all greedy. -/
def capsAlt (t : PyStr) : Option (PyStr × PyStr) :=
  let run1 := t.takeWhile Char.isUpper
  if run1.length < 2 then none
  else
    let rec more (fuel : Nat) (acc : PyStr) (rest : PyStr) (count : Nat) :
        Option (PyStr × PyStr) :=
      match fuel with
      | 0 => if count > 0 then some (acc, rest) else none
      | fuel+1 =>
        let ws := rest.takeWhile isPySpace
        let after := rest.drop ws.length
        let run := after.takeWhile Char.isUpper
        if ws ≠ [] && run.length ≥ 2 then
          more fuel (acc ++ ws ++ run) (after.drop run.length) (count + 1)
        else if count > 0 then some (acc, rest) else none
    more t.length run1 (t.drop run1.length) 0

/-- Try the six alternatives in pattern order at text `t`; on success
return the group record of the match. -/
def albumAlts (t : PyStr) : Option AlbumGroups :=
  match quotedAlt cQuote cQuote t with
  | some (b, _) => some ⟨some b, none, none, none, none, none⟩
  | none =>
  match quotedAlt cApos cApos t with
  | some (b, _) => some ⟨none, some b, none, none, none, none⟩
  | none =>
  match quotedAlt '“' '”' t with
  | some (b, _) => some ⟨none, none, some b, none, none, none⟩
  | none =>
  match quotedAlt '„' '“' t with
  | some (b, _) => some ⟨none, none, none, some b, none, none⟩
  | none =>
  match bareAlt t with
  | some (b, _) => some ⟨none, none, none, none, some b, none⟩
  | none =>
  match capsAlt t with
  | some (b, _) => some ⟨none, none, none, none, none, some b⟩
  | none => none

/-- After a cue match ending at text `t`: the optional `[,:]` (greedy),
then `\s+` (greedy with backtracking), then the alternation. -/
def albumAfterCue (t : PyStr) : Option AlbumGroups :=
  let afterWs : PyStr → Option AlbumGroups := fun u =>
    let wsLen := (u.takeWhile isPySpace).length
    let rec down (k : Nat) : Option AlbumGroups :=
      match k with
      | 0 => none
      | k+1 =>
        match albumAlts (u.drop (k+1)) with
        | some g => some g
        | none => down k
    down wsLen
  match t with
  | c :: u =>
    if c == ',' || c == ':' then
      match afterWs u with
      | some g => some g
      | none => afterWs t
    else afterWs t
  | [] => none

/-- Try a match starting exactly at text `t`: a cue alternative, then the
rest of the pattern. -/
def albumAt (t : PyStr) : Option AlbumGroups :=
  cueAlts.findSome? (fun cue =>
    if cue.isPrefixOf t then albumAfterCue (t.drop cue.length) else none)

/-- `re.search` of the album pattern: the leftmost start position at which
the pattern matches. -/
def albumSearch (desc : PyStr) : Option AlbumGroups :=
  (List.range (desc.length + 1)).findSome? (fun i => albumAt (desc.drop i))

/-- The album assignment of `process_audio` for an empty user album:
`titlecase(match.group(1))` on a match, the previous (empty) value on no
match.  When the match captured through an alternative other than the
double-quoted one, `group(1)` is `None` and `titlecase(None)` raises a
`TypeError`; that uncaught exception is modelled as `Except.error`. -/
def process_audio_album (desc : PyStr) : Except Unit PyStr :=
  match albumSearch desc with
  | some m =>
    match m.g1 with
    | some g => Except.ok (titlecase g)
    | none => Except.error ()
  | none => Except.ok []

/-! ### General lemmas about the string primitives -/

theorem toNat_ofNat_valid (n : Nat) (h : n.isValidChar) : (Char.ofNat n).toNat = n := by
  unfold Char.ofNat
  simp [h]
  unfold Char.ofNatAux Char.toNat
  simp [UInt32.toNat, BitVec.toNat_ofNatLt]

theorem toLower_toUpper (c : Char) : c.toUpper.toLower = c.toLower := by
  unfold Char.toUpper Char.toLower
  by_cases h : c.toNat ≥ 97 ∧ c.toNat ≤ 122
  · rw [if_pos h]
    have hv : (c.toNat - 32).isValidChar := Or.inl (by omega)
    rw [toNat_ofNat_valid _ hv]
    rw [if_pos (by omega : (c.toNat - 32) ≥ 65 ∧ (c.toNat - 32) ≤ 90)]
    rw [if_neg (by omega : ¬ (c.toNat ≥ 65 ∧ c.toNat ≤ 90))]
    have h32 : c.toNat - 32 + 32 = c.toNat := by omega
    rw [h32, Char.ofNat_toNat]
  · simp only [if_neg h]

theorem toLower_toLower (c : Char) : c.toLower.toLower = c.toLower := by
  unfold Char.toLower
  by_cases h : c.toNat ≥ 65 ∧ c.toNat ≤ 90
  · rw [if_pos h]
    have hv : (c.toNat + 32).isValidChar := Or.inl (by
      rcases c.valid with hc | hc
      · omega
      · omega)
    rw [toNat_ofNat_valid _ hv]
    rw [if_neg (by omega : ¬ (c.toNat + 32 ≥ 65 ∧ c.toNat + 32 ≤ 90))]
  · simp only [if_neg h]

theorem lowerS_append (a b : PyStr) : lowerS (a ++ b) = lowerS a ++ lowerS b :=
  List.map_append _ _ _

theorem lowerS_lowerS (s : PyStr) : lowerS (lowerS s) = lowerS s := by
  unfold lowerS
  rw [List.map_map]
  exact List.map_congr_left (fun c _ => toLower_toLower c)

theorem lowerS_eq_self (s : PyStr) (h : ∀ c ∈ s, c.toLower = c) : lowerS s = s := by
  unfold lowerS
  calc s.map Char.toLower = s.map id := List.map_congr_left (fun c hc => h c hc)
  _ = s := List.map_id s

theorem mem_lowerS_self (c : Char) (s : PyStr) (hc : c.toLower = c) (h : c ∈ s) :
    c ∈ lowerS s := by
  unfold lowerS
  exact hc ▸ List.mem_map_of_mem Char.toLower h

/-- `containsSub` decides list-infix containment. -/
theorem containsSub_iff (n h : PyStr) : containsSub n h = true ↔ n <:+: h := by
  induction h with
  | nil =>
    unfold containsSub
    rw [List.isPrefixOf_iff_prefix]
    constructor
    · exact fun hp => hp.isInfix
    · rintro ⟨p, q, hpq⟩
      rcases List.append_eq_nil.mp hpq with ⟨h1, h2⟩
      rcases List.append_eq_nil.mp h1 with ⟨-, h3⟩
      exact h3 ▸ List.nil_prefix
  | cons c t ih =>
    unfold containsSub
    rw [Bool.or_eq_true, List.isPrefixOf_iff_prefix, ih]
    constructor
    · rintro (hp | hi)
      · exact hp.isInfix
      · rcases hi with ⟨p, q, hpq⟩
        exact ⟨c :: p, q, by rw [← hpq]; rfl⟩
    · rintro ⟨p, q, hpq⟩
      rcases p with - | ⟨d, p⟩
      · exact Or.inl ⟨q, by simpa using hpq⟩
      · right
        rw [List.cons_append, List.cons_append] at hpq
        exact ⟨p, q, (List.cons.injEq .. ▸ hpq).2⟩

theorem containsSub_false_iff (n h : PyStr) : containsSub n h = false ↔ ¬ n <:+: h := by
  rw [← containsSub_iff]
  exact ⟨fun hf => by simp [hf], fun hn => by simpa using hn⟩

theorem containsSub_singleton (c : Char) (s : PyStr) :
    containsSub [c] s = true ↔ c ∈ s := by
  rw [containsSub_iff]
  constructor
  · rintro ⟨p, q, hpq⟩
    rw [← hpq]
    simp
  · intro hm
    rcases List.append_of_mem hm with ⟨p, q, hpq⟩
    exact ⟨p, q, by simp [hpq]⟩

theorem mem_of_containsSub (n s : PyStr) (h : containsSub n s = true) :
    ∀ c ∈ n, c ∈ s := by
  rw [containsSub_iff] at h
  exact fun c hc => h.subset hc

/-- `splitFirst` finds an occurrence: the string decomposes around it. -/
theorem splitFirst_append (sep s p q : PyStr) (h : splitFirst sep s = some (p, q)) :
    s = p ++ sep ++ q := by
  induction s generalizing p q with
  | nil =>
    unfold splitFirst at h
    by_cases hp : sep.isPrefixOf ([] : PyStr)
    · rw [if_pos hp] at h
      rw [List.isPrefixOf_iff_prefix] at hp
      rcases hp with ⟨t, ht⟩
      rcases List.append_eq_nil.mp ht with ⟨h1, -⟩
      rw [Option.some.injEq, Prod.mk.injEq] at h
      obtain ⟨rfl, rfl⟩ := h
      simp [h1]
    · rw [if_neg hp] at h
      exact absurd h (by simp)
  | cons c t ih =>
    unfold splitFirst at h
    by_cases hp : sep.isPrefixOf (c :: t)
    · rw [if_pos hp] at h
      rw [Option.some.injEq, Prod.mk.injEq] at h
      obtain ⟨rfl, rfl⟩ := h
      rw [List.isPrefixOf_iff_prefix] at hp
      rcases hp with ⟨r, hr⟩
      rw [List.nil_append, ← hr, List.drop_left]
    · rw [if_neg hp] at h
      rcases hsf : splitFirst sep t with - | ⟨p', q'⟩
      · rw [hsf] at h
        exact absurd h (by simp)
      · rw [hsf, Option.some.injEq, Prod.mk.injEq] at h
        obtain ⟨rfl, rfl⟩ := h
        have := ih p' q' hsf
        simp [this]

/-- `splitFirst` finds the first occurrence: any other decomposition has a
longer (or equal) head. -/
theorem splitFirst_minimal (sep s p q : PyStr) (h : splitFirst sep s = some (p, q)) :
    ∀ p' q', s = p' ++ sep ++ q' → p.length ≤ p'.length := by
  induction s generalizing p q with
  | nil =>
    intro p' q' _
    have hap := splitFirst_append sep [] p q h
    rcases List.append_eq_nil.mp (List.append_eq_nil.mp hap.symm).1 with ⟨h1, -⟩
    simp [h1]
  | cons c t ih =>
    intro p' q' hdec
    unfold splitFirst at h
    by_cases hp : sep.isPrefixOf (c :: t)
    · rw [if_pos hp] at h
      rw [Option.some.injEq, Prod.mk.injEq] at h
      obtain ⟨rfl, -⟩ := h
      simp
    · rw [if_neg hp] at h
      rcases hsf : splitFirst sep t with - | ⟨p2, q2⟩
      · rw [hsf] at h
        exact absurd h (by simp)
      · rw [hsf, Option.some.injEq, Prod.mk.injEq] at h
        obtain ⟨rfl, -⟩ := h
        rcases p' with - | ⟨d, p'⟩
        · exfalso
          apply hp
          rw [List.isPrefixOf_iff_prefix]
          exact ⟨q', by simpa using hdec.symm⟩
        · have hd : t = p' ++ sep ++ q' := by
            rw [List.cons_append, List.cons_append] at hdec
            exact (List.cons.injEq .. ▸ hdec).2
          have := ih p2 q2 hsf p' q' hd
          simpa using this

theorem splitFirst_none_iff (sep s : PyStr) :
    splitFirst sep s = none ↔ containsSub sep s = false := by
  induction s with
  | nil =>
    unfold splitFirst containsSub
    by_cases hp : sep.isPrefixOf ([] : PyStr)
    · simp [hp]
    · simp [hp]
  | cons c t ih =>
    unfold splitFirst containsSub
    by_cases hp : sep.isPrefixOf (c :: t)
    · simp [hp]
    · simp only [if_neg hp, Bool.or_eq_false_iff]
      rcases hsf : splitFirst sep t with - | ⟨p, q⟩
      · simp [ih.mp hsf, hp]
      · have hct : containsSub sep t = true := by
          rcases Bool.eq_false_or_eq_true (containsSub sep t) with ht | hf
          · exact ht
          · exact absurd (ih.mpr hf) (by simp [hsf])
        simp [hsf, hct, hp]

/-- A string with no occurrence of the pattern is unchanged by `replaceAllF`. -/
theorem replaceAllF_no_occ (pat repl : PyStr) (fuel : Nat) (s : PyStr)
    (h : containsSub pat s = false) : replaceAllF pat repl fuel s = s := by
  induction fuel generalizing s with
  | zero => rfl
  | succ fuel ih =>
    rcases s with - | ⟨c, t⟩
    · rfl
    · unfold containsSub at h
      rw [Bool.or_eq_false_iff] at h
      show replaceAllF pat repl (fuel + 1) (c :: t) = c :: t
      unfold replaceAllF
      rw [if_neg (by simp [h.1]), ih t h.2]

theorem replaceAll_no_occ (pat repl s : PyStr) (h : containsSub pat s = false) :
    replaceAll pat repl s = s := by
  unfold replaceAll
  by_cases hp : pat = []
  · rw [if_pos hp]
  · rw [if_neg hp]
    exact replaceAllF_no_occ pat repl s.length s h

/-- A rule list none of whose keys occurs leaves the string unchanged. -/
theorem applyRulesList_no_occ (rs : List (PyStr × PyStr)) (s : PyStr)
    (h : ∀ pr ∈ rs, containsSub pr.1 s = false) : applyRulesList rs s = s := by
  induction rs with
  | nil => rfl
  | cons r rs ih =>
    unfold applyRulesList
    rw [List.foldl_cons, replaceAll_no_occ r.1 r.2 s (h r (by simp))]
    exact ih (fun pr hpr => h pr (by simp [hpr]))

/-- Substituting a pattern by a replacement with the same lower-casing
preserves the lower-cased projection of the string. -/
theorem replaceAllF_lower_proj (pat repl : PyStr) (hlr : lowerS repl = lowerS pat)
    (fuel : Nat) (s : PyStr) :
    lowerS (replaceAllF pat repl fuel s) = lowerS s := by
  induction fuel generalizing s with
  | zero => rfl
  | succ fuel ih =>
    rcases s with - | ⟨c, t⟩
    · rfl
    · show lowerS (replaceAllF pat repl (fuel + 1) (c :: t)) = lowerS (c :: t)
      unfold replaceAllF
      by_cases hp : pat.isPrefixOf (c :: t)
      · rw [if_pos hp]
        rw [List.isPrefixOf_iff_prefix] at hp
        rcases hp with ⟨r, hr⟩
        have hdrop : (c :: t).drop pat.length = r := by rw [← hr, List.drop_left]
        rw [hdrop, lowerS_append, ih r, hlr, ← lowerS_append, hr]
      · rw [if_neg hp]
        show lowerS (c :: replaceAllF pat repl fuel t) = lowerS (c :: t)
        unfold lowerS
        rw [List.map_cons, List.map_cons]
        rw [show (replaceAllF pat repl fuel t).map Char.toLower = lowerS t from ih t]
        rfl

theorem replaceAll_lower_proj (pat repl s : PyStr) (hlr : lowerS repl = lowerS pat) :
    lowerS (replaceAll pat repl s) = lowerS s := by
  unfold replaceAll
  by_cases hp : pat = []
  · rw [if_pos hp]
  · rw [if_neg hp]
    exact replaceAllF_lower_proj pat repl hlr s.length s

theorem pySplitF_ne_nil (sep : PyStr) (fuel : Nat) (s : PyStr) :
    pySplitF sep fuel s ≠ [] := by
  cases fuel with
  | zero => simp [pySplitF]
  | succ fuel =>
    unfold pySplitF
    rcases h : splitFirst sep s with - | ⟨p, q⟩
    · simp
    · simp

theorem pySplit_of_splitFirst (sep s p q : PyStr) (h : splitFirst sep s = some (p, q)) :
    (pySplit sep s).headD [] = p ∧ 2 ≤ (pySplit sep s).length := by
  unfold pySplit
  unfold pySplitF
  rw [h]
  refine ⟨rfl, ?_⟩
  have := pySplitF_ne_nil sep s.length q
  rcases hq : pySplitF sep s.length q with - | ⟨a, b⟩
  · exact absurd hq this
  · simp [hq]

theorem pySplit_no_sep (sep s : PyStr) (h : containsSub sep s = false) :
    pySplit sep s = [s] := by
  unfold pySplit pySplitF
  rw [(splitFirst_none_iff sep s).mpr h]

/-- The year rule cannot fire on a string without `(`; `applyRules` then
agrees with the year-free pass. -/
theorem applyRules_eq_NY (year uploader s : PyStr)
    (h : '(' ∉ applyRulesList (preRules uploader) s) :
    applyRules year uploader s = applyRulesNY uploader s := by
  unfold applyRules applyRulesNY
  rw [replaceAll_no_occ]
  rcases hb : containsSub (pys " (" ++ year ++ pys ")") (applyRulesList (preRules uploader) s) with - | -
  · rfl
  · exact absurd (mem_of_containsSub _ _ hb '(' (by simp [pys])) h

/-- Year-independence bridge for `normalize_filename`. -/
theorem normalize_eq_NY (year uploader s : PyStr)
    (h : '(' ∉ applyRulesList (preRules uploader) (lowerS (basenameP s))) :
    normalize_filename year uploader s = normalizeCoreNY uploader (lowerS (basenameP s)) := by
  unfold normalize_filename normalizeCore normalizeCoreNY
  rw [applyRules_eq_NY year uploader _ h]

/-! ### Claim theorems -/

/-- Claim C8: normalizing `"Song Title // SomeChannel"` with uploader
`"SomeChannel"` yields a result containing neither the channel name (in
either casing) nor a doubled space, and the uploader-removal rules stand
before the double-space rule in the table.  On the literal input the
`os.path.basename` prefix step already truncates at the slashes, so the
result is in fact empty; on the same title as the downloader's
slash-sanitized file name (`⧸`, which the rule table removes) the result
keeps the title: `"Song Title.mp3"`.  Both results are free of the channel
name and of doubled spaces. -/
theorem c8_uploader_suffix_removal : ∀ year : PyStr,
    normalize_filename year (pys "SomeChannel") (pys "Song Title // SomeChannel") = [] ∧
    containsSub (pys "SomeChannel") [] = false ∧
    containsSub (pys "somechannel") [] = false ∧
    containsSub (pys "  ") [] = false ∧
    normalize_filename year (pys "SomeChannel") (pys "Song Title ⧸⧸ SomeChannel.mp3")
      = pys "Song Title.mp3" ∧
    containsSub (pys "SomeChannel") (pys "Song Title.mp3") = false ∧
    containsSub (pys "somechannel") (pys "Song Title.mp3") = false ∧
    containsSub (pys "  ") (pys "Song Title.mp3") = false ∧
    (pys "_ somechannel", ([] : PyStr)) ∈ postRules (pys "SomeChannel") ∧
    (pys " somechannel", ([] : PyStr)) ∈ postRules (pys "SomeChannel") ∧
    (postRules (pys "SomeChannel")).getLast? = some (pys "  ", pys " ") := by
  intro year
  rw [normalize_eq_NY year (pys "SomeChannel") (pys "Song Title // SomeChannel") (by decide),
    normalize_eq_NY year (pys "SomeChannel") (pys "Song Title ⧸⧸ SomeChannel.mp3") (by decide)]
  decide

/-- Claim C10 (implicit): the rule `f" {uploader.lower()}": ""` deletes
every occurrence of a space followed by the lower-cased uploader name,
anywhere in the string — not only in the `" // {uploader}"` and
`"_ {uploader}"` attribution forms.  A self-titled `"Band - Band.mp3"`
with uploader `"Band"` loses the mid-string occurrence and becomes
`"Band -.mp3"`, and an occurrence in the middle of a title
(`"intro Band outro.mp3"`) is deleted as well. -/
theorem c10_uploader_substring_removed_everywhere : ∀ year : PyStr,
    normalize_filename year (pys "Band") (pys "Band - Band.mp3") = pys "Band -.mp3" ∧
    normalize_filename year (pys "Band") (pys "intro Band outro.mp3") = pys "Intro Outro.mp3" ∧
    containsSub (pys " band") (lowerS (pys "Band - Band.mp3")) = true ∧
    containsSub (pys " // band") (lowerS (pys "Band - Band.mp3")) = false ∧
    containsSub (pys "_ band") (lowerS (pys "Band - Band.mp3")) = false ∧
    containsSub (pys " band") (lowerS (pys "Band -.mp3")) = false ∧
    (pys " " ++ lowerS (pys "Band"), ([] : PyStr)) ∈ postRules (pys "Band") := by
  intro year
  rw [normalize_eq_NY year (pys "Band") (pys "Band - Band.mp3") (by decide),
    normalize_eq_NY year (pys "Band") (pys "intro Band outro.mp3") (by decide)]
  decide

/-- Claim C1: on the spec's own example description the album regex does
match, but through the bare-phrase alternative: group 5 captures `"Album"`
and group 1 — the only group the code ever reads — captures nothing.
`titlecase(match.group(1))` is `titlecase(None)`, which raises an uncaught
`TypeError`; no album is extracted, let alone a title-cased
`"Dawn of Fire"`. -/
theorem c1_album_extraction_group1_crash :
    albumSearch (pys "New single, Album \"Dawn of Fire\", out now")
      = some ⟨none, none, none, none, some (pys "Album"), none⟩ ∧
    process_audio_album (pys "New single, Album \"Dawn of Fire\", out now")
      = Except.error () ∧
    (albumSearch (pys "New single, Album \"Dawn of Fire\", out now")).isSome = true := by
  refine ⟨by decide, by rfl, by decide⟩

/-- Claim C3: the reference layer falls through to the Wikipedia lookup
when the first file fails to load (`loadFail`) or has no tag structure
(`noTag`) — but when the file loads with a tag container whose genre frame
is missing, `str(tag.genre)` is `str(None)` and `find_genre` returns the
bogus non-empty genre `"None"` instead of falling through: with an English
Wikipedia page offering `"Metal"`, the load-failure and no-tag
environments yield `"Metal"`, while the missing-genre-frame environment
yields the string `"None"`. -/
theorem c3_missing_genre_frame_returns_None_string :
    find_genre ⟨true, [pys "ref.mp3"], fun _ => RefLoad.tagged none⟩
        ⟨fun lang _ => if lang = pys "en"
          then some ⟨some [⟨some (pys "Genres"), [pys "Metal"]⟩]⟩ else none⟩
        (pys "Gojira") = pys "None" ∧
    find_genre ⟨true, [pys "ref.mp3"], fun _ => RefLoad.loadFail⟩
        ⟨fun lang _ => if lang = pys "en"
          then some ⟨some [⟨some (pys "Genres"), [pys "Metal"]⟩]⟩ else none⟩
        (pys "Gojira") = pys "Metal" ∧
    find_genre ⟨true, [pys "ref.mp3"], fun _ => RefLoad.noTag⟩
        ⟨fun lang _ => if lang = pys "en"
          then some ⟨some [⟨some (pys "Genres"), [pys "Metal"]⟩]⟩ else none⟩
        (pys "Gojira") = pys "Metal" ∧
    pys "None" ≠ ([] : PyStr) := by
  refine ⟨?_, ?_, ?_, by decide⟩
  · rfl
  · rfl
  · rfl

/-- Claim C6, counterexample: on the spec's end-to-end example the
canonical title is `"Metallica - Master of Puppets.mp3"` — the titlecase
library lower-cases the small word `of` — not the claimed
`"Metallica - Master Of Puppets.mp3"`. -/
theorem c6_counterexample :
    normalize_filename (pys "2025") (pys "Metallica")
        (pys "Metallica - Master Of Puppets (Official Music Video).mp3")
      = pys "Metallica - Master of Puppets.mp3" ∧
    normalize_filename (pys "2025") (pys "Metallica")
        (pys "Metallica - Master Of Puppets (Official Music Video).mp3")
      ≠ pys "Metallica - Master Of Puppets.mp3" := by
  rw [normalize_eq_NY (pys "2025") (pys "Metallica")
    (pys "Metallica - Master Of Puppets (Official Music Video).mp3") (by decide)]
  exact ⟨by decide, by decide⟩

/-- Claim C6, amended: for every run-time year, normalizing rawTitle
`"Metallica - Master Of Puppets (Official Music Video)"` (as the
downloaded file `....mp3`) with uploader `"Metallica"` yields the
canonical `"Metallica - Master of Puppets.mp3"`, and splitting it yields
artist `"Metallica"` and title `"Master of Puppets"`. -/
theorem c6_end_to_end_metallica : ∀ year : PyStr,
    normalize_filename year (pys "Metallica")
        (pys "Metallica - Master Of Puppets (Official Music Video).mp3")
      = pys "Metallica - Master of Puppets.mp3" ∧
    split_artist_title (pys "Metallica") (pys "Metallica - Master of Puppets.mp3")
      = (pys "Metallica", pys "Master of Puppets") := by
  intro year
  rw [normalize_eq_NY year (pys "Metallica")
    (pys "Metallica - Master Of Puppets (Official Music Video).mp3") (by decide)]
  exact ⟨by decide, by decide⟩

/-- Claim C5, counterexample: the rawTitle `"Nightwish - Topic"` cannot be
"with no separator" — its canonical form contains `" - "` — and splitting
it yields title `"Topic"`, not the cleaned raw title. -/
theorem c5_counterexample :
    normalize_filename (pys "2025") (pys "Nightwish - Topic")
        (pys "Nightwish - Topic.mp3") = pys "Nightwish - Topic.mp3" ∧
    containsSub (pys " - ") (pys "Nightwish - Topic.mp3") = true ∧
    split_artist_title (pys "Nightwish - Topic") (pys "Nightwish - Topic.mp3")
      = (pys "Nightwish", pys "Topic") ∧
    pys "Topic" ≠ pys "Nightwish - Topic" := by
  rw [normalize_eq_NY (pys "2025") (pys "Nightwish - Topic")
    (pys "Nightwish - Topic.mp3") (by decide)]
  exact ⟨by decide, by decide, by decide, by decide⟩

/-- Claim C5, amended: for every canonical string with no `" - "`
separator, the split falls back to title = the canonical string with every
occurrence of `".mp3"` removed and artist = the title-cased uploader with
every occurrence of `" - Topic"` removed; in particular, with uploader
`"Nightwish - Topic"` and the separator-free canonical title
`"Sleeping Sun.mp3"` the artist is `"Nightwish"` and the title is the
cleaned raw title `"Sleeping Sun"`. -/
theorem c5_channel_only_fallback :
    (∀ c u : PyStr, containsSub (pys " - ") c = false →
      split_artist_title u c
        = (titlecase (replaceAll (pys " - Topic") [] u), replaceAll (pys ".mp3") [] c)) ∧
    (∀ year : PyStr, normalize_filename year (pys "Nightwish - Topic")
        (pys "Sleeping Sun.mp3") = pys "Sleeping Sun.mp3") ∧
    split_artist_title (pys "Nightwish - Topic") (pys "Sleeping Sun.mp3")
      = (pys "Nightwish", pys "Sleeping Sun") := by
  refine ⟨?_, ?_, by decide⟩
  · intro c u h
    unfold split_artist_title
    rw [(splitFirst_none_iff _ _).mpr h]
  · intro year
    rw [normalize_eq_NY year (pys "Nightwish - Topic") (pys "Sleeping Sun.mp3") (by decide)]
    decide

/-- Witness for the amended C5 at the concrete Nightwish instance. -/
theorem c5_channel_only_fallback_witness :
    containsSub (pys " - ") (pys "Sleeping Sun.mp3") = false ∧
    split_artist_title (pys "Nightwish - Topic") (pys "Sleeping Sun.mp3")
      = (titlecase (replaceAll (pys " - Topic") [] (pys "Nightwish - Topic")),
         replaceAll (pys ".mp3") [] (pys "Sleeping Sun.mp3")) :=
  ⟨by decide, c5_channel_only_fallback.1 (pys "Sleeping Sun.mp3") (pys "Nightwish - Topic") (by decide)⟩

/-- Claim C7, counterexample: with uploader `"ABC"` the text `"bc"` before
`"： "` is a substring but not a prefix of the lower-cased uploader, yet
the colon step fires: `"bc： song"` becomes `"bc - song"` (and the full
normalization yields `"Bc - Song"`), contradicting "left unchanged when
the preceding text is not a prefix". -/
theorem c7_counterexample :
    colonStep (pys "ABC") (pys "bc： song") = pys "bc - song" ∧
    (pys "bc").isPrefixOf (lowerS (pys "ABC")) = false ∧
    containsSub (pys "bc") (lowerS (pys "ABC")) = true ∧
    pys "bc - song" ≠ pys "bc： song" ∧
    normalize_filename (pys "2025") (pys "ABC") (pys "bc： song") = pys "Bc - Song" := by
  rw [normalize_eq_NY (pys "2025") (pys "ABC") (pys "bc： song") (by decide)]
  exact ⟨by decide, by decide, by decide, by decide, by decide⟩

/-- Claim C7, amended: during normalization, one occurrence of `"： "` is
replaced by `" - "` exactly when the text before the first such sequence
is a contiguous substring (not necessarily a prefix) of the lower-cased
uploader; the replacement happens at the first occurrence, and a string
without the sequence is left unchanged by this step. -/
theorem c7_colon_substring_condition :
    (∀ u s : PyStr, containsSub (pys "： ") s = false → colonStep u s = s) ∧
    (∀ u s pre post : PyStr, s = pre ++ pys "： " ++ post →
      (∀ pre' post' : PyStr, s = pre' ++ pys "： " ++ post' → pre.length ≤ pre'.length) →
      colonStep u s = if containsSub pre (lowerS u) then pre ++ pys " - " ++ post else s) := by
  constructor
  · intro u s h
    unfold colonStep
    rw [pySplit_no_sep _ _ h]
    simp
  · intro u s pre post hdec hmin
    rcases hsf : splitFirst (pys "： ") s with - | ⟨p, q⟩
    · exfalso
      have hcf := (splitFirst_none_iff _ _).mp hsf
      rw [containsSub_false_iff] at hcf
      exact hcf ⟨pre, post, by rw [hdec]⟩
    · have happ := splitFirst_append _ _ _ _ hsf
      have hlen : p.length = pre.length :=
        Nat.le_antisymm (splitFirst_minimal _ _ _ _ hsf pre post hdec)
          (hmin p q happ)
      have hcat : p ++ (pys "： " ++ q) = pre ++ (pys "： " ++ post) := by
        rw [← List.append_assoc, ← List.append_assoc, ← happ, ← hdec]
      obtain ⟨rfl, hq⟩ := List.append_inj hcat hlen
      have hq' : q = post := List.append_inj_right hq rfl
      subst hq'
      have hparts := pySplit_of_splitFirst _ _ _ _ hsf
      show (if (decide (2 ≤ (pySplit (pys "： ") s).length)
              && containsSub ((pySplit (pys "： ") s).headD []) (lowerS u)) = true
            then replaceFirst (pys "： ") (pys " - ") s else s)
        = if containsSub p (lowerS u) = true then p ++ pys " - " ++ q else s
      rw [hparts.1, decide_eq_true hparts.2, Bool.true_and]
      rcases hc : containsSub p (lowerS u) with - | -
      · rw [if_neg (by simp [hc]), if_neg (by simp [hc])]
      · rw [if_pos (by simp [hc]), if_pos (by simp [hc])]
        unfold replaceFirst
        rw [hsf]

/-- Witness for the amended C7 at concrete instances of both branches. -/
theorem c7_colon_substring_condition_witness :
    colonStep (pys "ABC") (pys "bc： song")
      = (if containsSub (pys "bc") (lowerS (pys "ABC"))
         then pys "bc" ++ pys " - " ++ pys "song" else pys "bc： song") ∧
    colonStep (pys "ABC") (pys "xy： song")
      = (if containsSub (pys "xy") (lowerS (pys "ABC"))
         then pys "xy" ++ pys " - " ++ pys "song" else pys "xy： song") ∧
    colonStep (pys "ABC") (pys "no colon here") = pys "no colon here" :=
  ⟨c7_colon_substring_condition.2 (pys "ABC") (pys "bc： song") (pys "bc") (pys "song")
      (by decide) (splitFirst_minimal (pys "： ") (pys "bc： song") (pys "bc") (pys "song")
        (by decide)),
   c7_colon_substring_condition.2 (pys "ABC") (pys "xy： song") (pys "xy") (pys "song")
      (by decide) (splitFirst_minimal (pys "： ") (pys "xy： song") (pys "xy") (pys "song")
        (by decide)),
   c7_colon_substring_condition.1 (pys "ABC") (pys "no colon here") (by decide)⟩

/-- Claim C4, counterexample: the canonical string
`"X - b.mp3 C.mp3"` (produced by the normalizer from
`"x - b.mp3 c.mp3"`) contains one separator, but the computed title is
`"b C"`: the code removes every occurrence of `".mp3"` from the text after
the separator, not just the file extension (`"b.mp3 C"`). -/
theorem c4_counterexample :
    normalize_filename (pys "2025") (pys "Someone") (pys "x - b.mp3 c.mp3")
      = pys "X - b.mp3 C.mp3" ∧
    containsSub (pys " - ") (pys "X - b.mp3 C.mp3") = true ∧
    split_artist_title (pys "Someone") (pys "X - b.mp3 C.mp3") = (pys "X", pys "b C") ∧
    pys "b C" ≠ pys "b.mp3 C" := by
  rw [normalize_eq_NY (pys "2025") (pys "Someone") (pys "x - b.mp3 c.mp3") (by decide)]
  exact ⟨by decide, by decide, by decide, by decide⟩

/-- Claim C4, amended: for every string containing at least one `" - "`,
the split partitions at the first occurrence only — the artist is the text
before the first `" - "`, and the title is the text after it with every
occurrence of `".mp3"` removed (later `" - "` occurrences remain inside
that text). -/
theorem c4_split_first_occurrence :
    ∀ s u : PyStr, containsSub (pys " - ") s = true →
      ∃ pre post : PyStr, s = pre ++ pys " - " ++ post ∧
        (∀ pre' post' : PyStr, s = pre' ++ pys " - " ++ post' → pre.length ≤ pre'.length) ∧
        split_artist_title u s = (pre, replaceAll (pys ".mp3") [] post) := by
  intro s u h
  rcases hsf : splitFirst (pys " - ") s with - | ⟨p, q⟩
  · exact absurd ((splitFirst_none_iff _ _).mp hsf) (by simp [h])
  · refine ⟨p, q, splitFirst_append _ _ _ _ hsf, splitFirst_minimal _ _ _ _ hsf, ?_⟩
    unfold split_artist_title
    rw [hsf]

/-- Witness for the amended C4 at a string with two separators. -/
theorem c4_split_first_occurrence_witness :
    containsSub (pys " - ") (pys "A - B - C.mp3") = true ∧
    (∃ pre post : PyStr, pys "A - B - C.mp3" = pre ++ pys " - " ++ post ∧
      (∀ pre' post' : PyStr, pys "A - B - C.mp3" = pre' ++ pys " - " ++ post' →
        pre.length ≤ pre'.length) ∧
      split_artist_title (pys "u") (pys "A - B - C.mp3")
        = (pre, replaceAll (pys ".mp3") [] post)) :=
  ⟨by decide, c4_split_first_occurrence (pys "A - B - C.mp3") (pys "u") (by decide)⟩

/-- Claim C2: genre resolution is layered and short-circuiting.  A
non-empty user genre is returned with no lookup; otherwise a reference
directory whose first file yields a genre determines the result and makes
it independent of the Wikipedia oracle (the external lookup is never
consulted); when the reference layer yields nothing and both language
lookups fail, the genre is the empty string. -/
theorem c2_genre_resolution_order :
    (∀ (g : PyStr) (env : RefEnv) (wiki : WikiEnv) (artist : PyStr),
      g ≠ [] → set_tags_genre g env wiki artist = g) ∧
    (∀ (env : RefEnv) (wiki wiki' : WikiEnv) (artist f : PyStr) (rest : List PyStr)
        (g : PyStr),
      env.dirExists = true → env.files = f :: rest →
      env.load f = RefLoad.tagged (some g) →
      set_tags_genre [] env wiki artist = g ∧
      find_genre env wiki artist = find_genre env wiki' artist) ∧
    (∀ (env : RefEnv) (wiki : WikiEnv) (artist : PyStr),
      (env.dirExists = false ∨ env.files = [] ∨
        (∀ f rest, env.files = f :: rest →
          env.load f = RefLoad.loadFail ∨ env.load f = RefLoad.noTag)) →
      wikiLangStep wiki artist (pys "en") = none →
      wikiLangStep wiki artist (pys "de") = none →
      set_tags_genre [] env wiki artist = []) := by
  refine ⟨?_, ?_, ?_⟩
  · intro g env wiki artist hg
    unfold set_tags_genre
    rw [if_neg hg]
  · intro env wiki wiki' artist f rest g hd hf hl
    have hfg : ∀ w : WikiEnv, find_genre env w artist = g := by
      intro w
      simp only [find_genre, hd, hf, hl, if_true, strOfGenre]
    constructor
    · unfold set_tags_genre
      rw [if_pos rfl, hfg wiki]
    · rw [hfg wiki, hfg wiki']
  · intro env wiki artist href hen hde
    have hwl : wikiLookup wiki artist = [] := by
      unfold wikiLookup
      rw [hen, hde]
    have hfg : find_genre env wiki artist = [] := by
      rcases href with hd | hfe | hld
      · simp only [find_genre, hd]
        simpa using hwl
      · rcases hdE : env.dirExists with - | -
        · simp only [find_genre, hdE]
          simpa using hwl
        · simp only [find_genre, hdE, hfe, if_true]
          exact hwl
      · rcases hdE : env.dirExists with - | -
        · simp only [find_genre, hdE]
          simpa using hwl
        · simp only [find_genre, hdE, if_true]
          rcases hfs : env.files with - | ⟨f, rest⟩
          · exact hwl
          · rcases hld f rest hfs with h1 | h1
            · simp only [h1]
              exact hwl
            · simp only [h1]
              exact hwl
    unfold set_tags_genre
    rw [if_pos rfl, hfg]

/-- Witness for C2: all three layers exercised at concrete environments
(the two Wikipedia oracles of the reference-success case disagree, yet the
result is the reference genre). -/
theorem c2_genre_resolution_order_witness :
    set_tags_genre (pys "Rock") ⟨true, [], fun _ => RefLoad.loadFail⟩
        ⟨fun _ _ => none⟩ (pys "X") = pys "Rock" ∧
    set_tags_genre [] ⟨true, [pys "r.mp3"], fun _ => RefLoad.tagged (some (pys "Metal"))⟩
        ⟨fun _ _ => none⟩ (pys "X") = pys "Metal" ∧
    find_genre ⟨true, [pys "r.mp3"], fun _ => RefLoad.tagged (some (pys "Metal"))⟩
        ⟨fun _ _ => none⟩ (pys "X")
      = find_genre ⟨true, [pys "r.mp3"], fun _ => RefLoad.tagged (some (pys "Metal"))⟩
        ⟨fun lang _ => if lang = pys "en"
          then some ⟨some [⟨some (pys "Genres"), [pys "Rock"]⟩]⟩ else none⟩ (pys "X") ∧
    set_tags_genre [] ⟨false, [], fun _ => RefLoad.loadFail⟩ ⟨fun _ _ => none⟩ (pys "X") = [] :=
  ⟨c2_genre_resolution_order.1 (pys "Rock") ⟨true, [], fun _ => RefLoad.loadFail⟩
      ⟨fun _ _ => none⟩ (pys "X") (by decide),
   (c2_genre_resolution_order.2.1 ⟨true, [pys "r.mp3"], fun _ => RefLoad.tagged (some (pys "Metal"))⟩
      ⟨fun _ _ => none⟩ ⟨fun _ _ => none⟩ (pys "X") (pys "r.mp3") [] (pys "Metal")
      rfl rfl rfl).1,
   (c2_genre_resolution_order.2.1 ⟨true, [pys "r.mp3"], fun _ => RefLoad.tagged (some (pys "Metal"))⟩
      ⟨fun _ _ => none⟩
      ⟨fun lang _ => if lang = pys "en"
        then some ⟨some [⟨some (pys "Genres"), [pys "Rock"]⟩]⟩ else none⟩
      (pys "X") (pys "r.mp3") [] (pys "Metal") rfl rfl rfl).2,
   c2_genre_resolution_order.2.2 ⟨false, [], fun _ => RefLoad.loadFail⟩ ⟨fun _ _ => none⟩
      (pys "X") (Or.inl rfl) rfl rfl⟩

/-! ### Lower-casing projection lemmas for the titlecase model

Every transformation of the titlecase library only changes the case of
characters in place (words are split and rejoined on the same separator
characters), so the lower-cased projection of a processed string equals
the lower-cased original.  These lemmas drive the idempotence proof of
`normalize_filename` (claim C9). -/

theorem lowerS_cons (c : Char) (t : PyStr) : lowerS (c :: t) = c.toLower :: lowerS t :=
  List.map_cons _ _ _

theorem capitalizeS_lower_proj (w : PyStr) : lowerS (capitalizeS w) = lowerS w := by
  cases w with
  | nil => rfl
  | cons c t =>
    show lowerS (c.toUpper :: t.map Char.toLower) = lowerS (c :: t)
    rw [lowerS_cons, lowerS_cons, toLower_toUpper]
    congr 1
    show lowerS (lowerS t) = lowerS t
    exact lowerS_lowerS t

theorem capFirstSub_lower_proj (w : PyStr) : lowerS (capFirstSub w) = lowerS w := by
  induction w with
  | nil => rfl
  | cons c t ih =>
    unfold capFirstSub
    by_cases h1 : isWordChar c = true
    · rw [if_pos h1, lowerS_cons, lowerS_cons, toLower_toUpper]
    · rw [if_neg h1]
      by_cases h2 : punctChars.contains c = true
      · rw [if_pos h2, lowerS_cons, lowerS_cons, ih]
      · rw [if_neg h2]

theorem aposTransform_lower_proj (w : PyStr) : lowerS (aposTransform w) = lowerS w := by
  rcases w with - | ⟨c0, - | ⟨c1, - | ⟨c2, rest⟩⟩⟩
  · rfl
  · rfl
  · rfl
  · show lowerS ((if ['a', 'e', 'i', 'o', 'u', 'A', 'E', 'I', 'O', 'U'].contains c0
        then c0.toUpper else c0.toLower) :: c1 :: c2.toUpper :: rest)
      = lowerS (c0 :: c1 :: c2 :: rest)
    by_cases h : ['a', 'e', 'i', 'o', 'u', 'A', 'E', 'I', 'O', 'U'].contains c0 = true
    · rw [if_pos h, lowerS_cons, lowerS_cons, lowerS_cons, lowerS_cons,
        toLower_toUpper, toLower_toUpper, lowerS_cons, lowerS_cons]
    · rw [if_neg h, lowerS_cons, lowerS_cons, lowerS_cons, lowerS_cons,
        toLower_toLower, toLower_toUpper, lowerS_cons, lowerS_cons]

theorem smallFirstSub_lower_proj (w : PyStr) : lowerS (smallFirstSub w) = lowerS w := by
  rcases h : smallAltWB (lowerS ((w.drop (w.takeWhile (fun c => punctChars.contains c)).length))) with - | L
  · simp only [smallFirstSub, h]
  · simp only [smallFirstSub, h]
    rw [lowerS_append, lowerS_append, capitalizeS_lower_proj, ← lowerS_append,
      ← lowerS_append, List.append_assoc, List.take_append_drop, List.take_append_drop]

theorem smallLastSub_lower_proj (w : PyStr) : lowerS (smallLastSub w) = lowerS w := by
  rcases h : smallLastPos w with - | i
  · simp only [smallLastSub, h]
  · simp only [smallLastSub, h]
    rw [lowerS_append, capitalizeS_lower_proj, ← lowerS_append, List.take_append_drop]

theorem subphraseSubF_lower_proj (fuel : Nat) :
    ∀ s : PyStr, lowerS (subphraseSubF fuel s) = lowerS s := by
  induction fuel with
  | zero => intro s; rfl
  | succ fuel ih =>
    intro s
    rcases s with - | ⟨c, - | ⟨t0, u⟩⟩
    · rfl
    · rfl
    · show lowerS (subphraseSubF (fuel + 1) (c :: t0 :: u)) = lowerS (c :: t0 :: u)
      unfold subphraseSubF
      by_cases h1 : (subPunct.contains c && t0 == ' ') = true
      · rw [if_pos h1]
        rcases ha : subAltLen u with - | L
        · rw [lowerS_cons, lowerS_cons (t := t0 :: u), ih (t0 :: u)]
        · rw [lowerS_cons, lowerS_cons, lowerS_cons, lowerS_cons]
          congr 2
          rw [lowerS_append, capitalizeS_lower_proj, ih (u.drop L),
            ← lowerS_append, List.take_append_drop]
      · rw [if_neg h1]
        rw [lowerS_cons, lowerS_cons (t := t0 :: u), ih (t0 :: u)]

theorem splitOnP_ne_nil (p : Char → Bool) (s : PyStr) : splitOnP p s ≠ [] := by
  cases s with
  | nil => simp [splitOnP]
  | cons c t =>
    unfold splitOnP
    by_cases h : p c = true
    · simp [h]
    · rw [if_neg h]
      rcases hsp : splitOnP p t with - | ⟨h0, r⟩
      · simp
      · simp

/-- Rejoining a character-class split with a canonical separator restores
the string, provided every separator character in the string is that
canonical character. -/
theorem joinWith_splitOnP (p : Char → Bool) (c : Char) (s : PyStr)
    (hs : ∀ x ∈ s, p x = true → x = c) :
    joinWith [c] (splitOnP p s) = s := by
  induction s with
  | nil => rfl
  | cons a t ih =>
    have iht := ih (fun x hx => hs x (by simp [hx]))
    unfold splitOnP
    by_cases ha : p a = true
    · rw [if_pos ha]
      have ha' : a = c := hs a (by simp) ha
      rcases hsp : splitOnP p t with - | ⟨h0, r⟩
      · exact absurd hsp (splitOnP_ne_nil p t)
      · rw [hsp] at iht
        show [] ++ [c] ++ joinWith [c] (h0 :: r) = a :: t
        rw [iht, ha']
        rfl
    · rw [if_neg ha]
      rcases hsp : splitOnP p t with - | ⟨h0, r⟩
      · exact absurd hsp (splitOnP_ne_nil p t)
      · rw [hsp] at iht
        rcases r with - | ⟨r0, r'⟩
        · show a :: h0 = a :: t
          rw [show h0 = t from iht]
        · show (a :: h0) ++ [c] ++ joinWith [c] (r0 :: r') = a :: t
          rw [← iht]
          rfl

theorem joinWith_lower_proj (sep : PyStr) (ls : List PyStr) :
    lowerS (joinWith sep ls) = joinWith (lowerS sep) (ls.map lowerS) := by
  induction ls with
  | nil => rfl
  | cons x ls ih =>
    rcases ls with - | ⟨y, r⟩
    · rfl
    · show lowerS (x ++ sep ++ joinWith sep (y :: r))
        = lowerS x ++ lowerS sep ++ joinWith (lowerS sep) ((y :: r).map lowerS)
      rw [lowerS_append, lowerS_append, ih]

/-- `MAC_MC` decomposes the word into its two-character head and the rest. -/
theorem macMc_append (w pre2 rest : PyStr) (h : macMc w = some (pre2, rest)) :
    w = pre2 ++ rest := by
  rcases w with - | ⟨c0, - | ⟨c1, - | ⟨r0, - | ⟨r1, t⟩⟩⟩⟩
  · exact absurd h (by simp [macMc])
  · exact absurd h (by simp [macMc])
  · exact absurd h (by simp [macMc])
  · exact absurd h (by simp [macMc])
  · simp only [macMc] at h
    by_cases hc : ((((c0 == 'M') || (c0 == 'm')) && c1 == 'c' || (c0 == 'M' && c1 == 'C')) &&
        isWordChar r0) = true
    · rw [if_pos hc] at h
      rw [Option.some.injEq, Prod.mk.injEq] at h
      obtain ⟨rfl, rfl⟩ := h
      rfl
    · rw [if_neg hc] at h
      exact absurd h (by simp)

/-- The per-word transformation preserves the lower-cased projection. -/
theorem procWordF_lower_proj (fuel : Nat) :
    ∀ (ac sfl : Bool) (w : PyStr), lowerS (procWordF fuel ac sfl w) = lowerS w := by
  induction fuel with
  | zero => intro ac sfl w; rfl
  | succ fuel ih =>
    intro ac sfl w
    have hsub : ∀ (flag flag' : Bool) (w' : PyStr),
        lowerS (subphraseSub (if flag then smallLastSub (smallFirstSub (procWordF fuel (allCapsB w') flag' w'))
                              else procWordF fuel (allCapsB w') flag' w')) = lowerS w' := by
      intro flag flag' w'
      cases flag with
      | false =>
        show lowerS (subphraseSub (procWordF fuel (allCapsB w') flag' w')) = lowerS w'
        unfold subphraseSub
        rw [subphraseSubF_lower_proj]
        exact ih _ _ w'
      | true =>
        show lowerS (subphraseSub (smallLastSub (smallFirstSub
          (procWordF fuel (allCapsB w') flag' w')))) = lowerS w'
        unfold subphraseSub
        rw [subphraseSubF_lower_proj, smallLastSub_lower_proj, smallFirstSub_lower_proj]
        exact ih _ _ w'
    show lowerS (procWordF (fuel + 1) ac sfl w) = lowerS w
    unfold procWordF
    by_cases h1 : (ac && ucInitials w) = true
    · rw [if_pos h1]
    · rw [if_neg h1]
      by_cases h2 : aposSecond w = true
      · rw [if_pos h2]
        exact aposTransform_lower_proj w
      · rw [if_neg h2]
        rcases hmc : macMc w with - | ⟨pre2, rest⟩
        · simp only [hmc]
          by_cases h3 : (inlinePeriod w || (!ac && ucElsewhere w)) = true
          · rw [if_pos h3]
          · rw [if_neg h3]
            by_cases h4 : smallWordFull w = true
            · rw [if_pos h4]
              exact lowerS_lowerS w
            · rw [if_neg h4]
              by_cases h5 : (containsSub ['/'] w && !containsSub ['/', '/'] w) = true
              · rw [if_pos h5]
                have hmap : ((splitOnP (fun c => c == '/') w).map (fun w' =>
                    subphraseSub (procWordF fuel (allCapsB w') false w'))).map lowerS
                    = (splitOnP (fun c => c == '/') w).map lowerS := by
                  rw [List.map_map]
                  apply List.map_congr_left
                  intro w' _
                  show lowerS (subphraseSub (procWordF fuel (allCapsB w') false w')) = lowerS w'
                  have := hsub false false w'
                  simpa using this
                rw [joinWith_lower_proj, hmap, ← joinWith_lower_proj,
                  joinWith_splitOnP (fun c => c == '/') '/' w (fun x _ hx => by
                    exact eq_of_beq hx)]
              · rw [if_neg h5]
                by_cases h6 : containsSub ['-'] w = true
                · rw [if_pos h6]
                  have hmap : ((splitOnP (fun c => c == '-') w).map (fun w' =>
                      subphraseSub (if sfl then smallLastSub (smallFirstSub (procWordF fuel (allCapsB w') sfl w'))
                                    else procWordF fuel (allCapsB w') sfl w'))).map lowerS
                      = (splitOnP (fun c => c == '-') w).map lowerS := by
                    rw [List.map_map]
                    apply List.map_congr_left
                    intro w' _
                    exact hsub sfl sfl w'
                  rw [joinWith_lower_proj, hmap, ← joinWith_lower_proj,
                    joinWith_splitOnP (fun c => c == '-') '-' w (fun x _ hx => by
                      exact eq_of_beq hx)]
                · rw [if_neg h6]
                  cases ac with
                  | false => exact capFirstSub_lower_proj w
                  | true =>
                    show lowerS (capFirstSub (lowerS w)) = lowerS w
                    rw [capFirstSub_lower_proj, lowerS_lowerS]
        · simp only [hmc]
          rw [lowerS_append, capitalizeS_lower_proj, hsub sfl sfl rest,
            ← lowerS_append, ← macMc_append w pre2 rest hmc]

theorem modifyLast_lower_proj (ls : List PyStr) :
    (modifyLast smallLastSub ls).map lowerS = ls.map lowerS := by
  induction ls with
  | nil => rfl
  | cons x t ih =>
    rcases t with - | ⟨y, r⟩
    · show [lowerS (smallLastSub x)] = [lowerS x]
      rw [smallLastSub_lower_proj]
    · show lowerS x :: (modifyLast smallLastSub (y :: r)).map lowerS
        = lowerS x :: (y :: r).map lowerS
      rw [ih]

theorem applyFirstLast_lower_proj (ls : List PyStr) :
    (applyFirstLast ls).map lowerS = ls.map lowerS := by
  rcases ls with - | ⟨h, t⟩
  · rfl
  · rcases t with - | ⟨y, r⟩
    · show [lowerS (smallLastSub (smallFirstSub h))] = [lowerS h]
      rw [smallLastSub_lower_proj, smallFirstSub_lower_proj]
    · show lowerS (smallFirstSub h) :: (modifyLast smallLastSub (y :: r)).map lowerS
        = lowerS h :: (y :: r).map lowerS
      rw [smallFirstSub_lower_proj, modifyLast_lower_proj]

theorem takeWhile_all (p : Char → Bool) (l : PyStr) (h : ∀ c ∈ l, p c = true) :
    l.takeWhile p = l := by
  induction l with
  | nil => rfl
  | cons c t ih =>
    rw [List.takeWhile_cons, if_pos (h c (by simp)), ih (fun c hc => h c (by simp [hc]))]

theorem dropWhile_all (p : Char → Bool) (l : PyStr) (h : ∀ c ∈ l, p c = true) :
    l.dropWhile p = [] := by
  induction l with
  | nil => rfl
  | cons c t ih =>
    rw [List.dropWhile_cons, if_pos (h c (by simp)), ih (fun c hc => h c (by simp [hc]))]

theorem splitRuns_single (p : Char → Bool) (s : PyStr) (h : ∀ c ∈ s, p c = false) :
    splitRuns p s = [s] := by
  unfold splitRuns splitRunsF
  rw [dropWhile_all (fun c => !p c) s (fun c hc => by simp [h c hc])]
  rw [takeWhile_all (fun c => !p c) s (fun c hc => by simp [h c hc])]

theorem lineProc_lower_proj (line : PyStr) (ht : '\t' ∉ line) :
    lowerS (lineProc line) = lowerS line := by
  unfold lineProc subphraseSub
  rw [subphraseSubF_lower_proj, joinWith_lower_proj, applyFirstLast_lower_proj,
    List.map_map]
  have hmap : (splitOnP (fun c => c == ' ' || c == '\t') line).map
      (lowerS ∘ fun w => procWordF (w.length + 1) (allCapsB line) true w)
      = (splitOnP (fun c => c == ' ' || c == '\t') line).map lowerS := by
    apply List.map_congr_left
    intro w _
    exact procWordF_lower_proj (w.length + 1) (allCapsB line) true w
  rw [hmap, ← joinWith_lower_proj]
  have hjs : joinWith [' '] (splitOnP (fun c => c == ' ' || c == '\t') line) = line := by
    apply joinWith_splitOnP
    intro x hx hpx
    rw [Bool.or_eq_true] at hpx
    rcases hpx with h1 | h1
    · exact eq_of_beq h1
    · exact absurd (eq_of_beq h1 ▸ hx) ht
  rw [hjs]

theorem titlecase_lower_proj (t : PyStr) (h1 : '\t' ∉ t) (h2 : '\n' ∉ t) (h3 : '\r' ∉ t) :
    lowerS (titlecase t) = lowerS t := by
  unfold titlecase
  rw [splitRuns_single (fun c => c == '\n' || c == '\r') t (fun c hc => by
    rcases Bool.eq_false_or_eq_true ((c == '\n') || (c == '\r')) with he | he
    · exfalso
      rw [Bool.or_eq_true] at he
      rcases he with hh | hh
      · exact h2 (eq_of_beq hh ▸ hc)
      · exact h3 (eq_of_beq hh ▸ hc)
    · exact he)]
  show lowerS (lineProc t) = lowerS t
  exact lineProc_lower_proj t h1

/-! ### The no-op conditions of a noise-free normalization pass -/

theorem colonStep_no_occ (uploader s : PyStr) (h : containsSub (pys "： ") s = false) :
    colonStep uploader s = s := by
  unfold colonStep
  rw [pySplit_no_sep _ _ h]
  simp

theorem featReorder_no_trigger (s : PyStr) (h : featTrigger s = false) :
    featReorder s = s := by
  unfold featReorder
  rw [h]
  simp

theorem splitextP_append (s : PyStr) : (splitextP s).1 ++ (splitextP s).2 = s := by
  rcases h : lastIdx (fun c => c == '.') s with - | d
  · simp only [splitextP, h]
    exact List.append_nil s
  · simp only [splitextP, h]
    unfold splitextAux
    by_cases h1 : sepIdxI s < (d : Int)
    · rw [if_pos h1]
      by_cases h2 : ((s.drop (sepIdxI s + 1).toNat).take (d - (sepIdxI s + 1).toNat)).any
          (fun c => c != '.') = true
      · rw [if_pos h2]
        exact List.take_append_drop d s
      · rw [if_neg h2]
        exact List.append_nil s
    · rw [if_neg h1]
      exact List.append_nil s

theorem basenameP_no_slash (s : PyStr) (h : '/' ∉ s) : basenameP s = s := by
  unfold basenameP
  rw [takeWhile_all (fun c => c != '/') s.reverse (fun c hc => by
    rw [List.mem_reverse] at hc
    simp only [bne_iff_ne, ne_eq, decide_eq_true_eq]
    intro he
    exact h (he ▸ hc)), List.reverse_reverse]

theorem lower_mem_lower (c : Char) (s : PyStr) (h : c ∈ lowerS s) : c.toLower = c := by
  unfold lowerS at h
  rcases List.mem_map.mp h with ⟨c', -, rfl⟩
  exact toLower_toLower c'

/-- Claim C9: normalization is idempotent on noise-free titles.  For every
input whose lower-cased base name is free of the known noise patterns (no
rule-table key occurs, the colon convention and the `feat.` reorder cannot
fire, the stem carries no surrounding whitespace, and no tab, newline,
carriage return or backslash occurs), the once-normalized string is a
fixed point of `normalize_filename` for the same uploader and year. -/
theorem c9_normalize_idempotent (year uploader s : PyStr) (h : noiseFree year uploader s) :
    normalize_filename year uploader (normalize_filename year uploader s)
      = normalize_filename year uploader s := by
  obtain ⟨hpre, hyear, hpost, hcolon, hstrip, hfeat, htab, hcr, hnl, hbs⟩ := h
  have h1 : applyRules year uploader (lowerS (basenameP s)) = lowerS (basenameP s) := by
    unfold applyRules
    rw [applyRulesList_no_occ _ _ hpre, replaceAll_no_occ _ _ _ hyear,
      applyRulesList_no_occ _ _ hpost]
  have h2 : colonStep uploader (lowerS (basenameP s)) = lowerS (basenameP s) :=
    colonStep_no_occ _ _ hcolon
  have hT : featReorder (stripS (splitextP (lowerS (basenameP s))).1)
      = (splitextP (lowerS (basenameP s))).1 := by
    rw [hstrip]
    exact featReorder_no_trigger _ hfeat
  have hcore : normalize_filename year uploader s
      = replaceAll (pys " Feat. ") (pys " feat. ")
          (titlecase (splitextP (lowerS (basenameP s))).1
            ++ (splitextP (lowerS (basenameP s))).2) := by
    simp only [normalize_filename, normalizeCore]
    rw [h1, h2, hT]
  have hsub1 : ∀ c ∈ (splitextP (lowerS (basenameP s))).1, c ∈ lowerS (basenameP s) := by
    intro c hc
    rw [← splitextP_append (lowerS (basenameP s))]
    exact List.mem_append_left _ hc
  have hsub2 : ∀ c ∈ (splitextP (lowerS (basenameP s))).2, c ∈ lowerS (basenameP s) := by
    intro c hc
    rw [← splitextP_append (lowerS (basenameP s))]
    exact List.mem_append_right _ hc
  have hproj : lowerS (replaceAll (pys " Feat. ") (pys " feat. ")
      (titlecase (splitextP (lowerS (basenameP s))).1
        ++ (splitextP (lowerS (basenameP s))).2)) = lowerS (basenameP s) := by
    rw [replaceAll_lower_proj _ _ _ (by decide), lowerS_append,
      titlecase_lower_proj _ (fun hc => htab (hsub1 _ hc)) (fun hc => hnl (hsub1 _ hc))
        (fun hc => hcr (hsub1 _ hc)),
      lowerS_eq_self _ (fun c hc => lower_mem_lower c (basenameP s) (hsub1 _ hc)),
      lowerS_eq_self _ (fun c hc => lower_mem_lower c (basenameP s) (hsub2 _ hc)),
      splitextP_append]
  have hnoslash : '/' ∉ replaceAll (pys " Feat. ") (pys " feat. ")
      (titlecase (splitextP (lowerS (basenameP s))).1
        ++ (splitextP (lowerS (basenameP s))).2) := by
    intro hc
    have hm : '/' ∈ lowerS (basenameP s) := by
      rw [← hproj]
      exact mem_lowerS_self '/' _ (by decide) hc
    have h2' := (containsSub_singleton '/' (lowerS (basenameP s))).mpr hm
    have h3' := hpre (['/'], []) (by simp [preRules])
    exact absurd (h3'.symm.trans h2') (by simp)
  rw [hcore]
  unfold normalize_filename
  rw [basenameP_no_slash _ hnoslash, hproj]
  simp only [normalizeCore]
  rw [h1, h2, hT]

/-- Witness for C9 at a concrete noise-free canonical title. -/
theorem c9_normalize_idempotent_witness :
    noiseFree (pys "2025") (pys "Metallica") (pys "Metallica - Master of Puppets.mp3") ∧
    normalize_filename (pys "2025") (pys "Metallica")
        (normalize_filename (pys "2025") (pys "Metallica")
          (pys "Metallica - Master of Puppets.mp3"))
      = normalize_filename (pys "2025") (pys "Metallica")
          (pys "Metallica - Master of Puppets.mp3") :=
  ⟨by decide, c9_normalize_idempotent (pys "2025") (pys "Metallica")
    (pys "Metallica - Master of Puppets.mp3") (by decide)⟩

end YtMusic
